import Mathlib

/-!
Verification of the COBS (Consistent Overhead Byte Stuffing) codec from
`include/nth/cobs.h`.  Bytes are modelled as natural numbers below 256;
the `uint8_t` buffers and spans of the C++ become `List Nat`, sink
callbacks become accumulated output lists, and the bounded output
buffers of the two buffer-based variants become an explicit `List Nat`
that is updated with `List.set` under the same `dst < dst_end` guards
as the pointer arithmetic in the source.
-/

namespace Cobs

/-- Bulk encode, callback variant (`cobs_encode(span, cb)` at cobs.h:132).
`pending` is the data of the currently open block (the bytes between the
`chunk` pointer and `src_dat`); the C++ `code` equals `pending.length + 1`.
The result is the concatenation of all bytes passed to the callback:
each flushed block contributes its code byte followed by its data.
Per input byte the source first flushes when `code == 0xff`, then either
flushes on a zero byte or appends the byte to the open block; at the end
of input the open block is always flushed. -/
def encGo : List Nat → List Nat → List Nat
  | pending, [] => (pending.length + 1) :: pending
  | pending, b :: rest =>
    if pending.length = 254 then
      (255 :: pending) ++ (if b = 0 then 1 :: encGo [] rest else encGo [b] rest)
    else if b = 0 then
      ((pending.length + 1) :: pending) ++ encGo [] rest
    else
      encGo (pending ++ [b]) rest

/-- `cobs_encode(span, cb)`: full encoded byte stream for a payload.
The C++ return value is the length of this list. -/
def cobs_encode (input : List Nat) : List Nat :=
  encGo [] input

/-- The block structure produced by the bulk encoder: the same recursion
as `encGo`, but keeping each block's data as a separate list. -/
def encBlocks : List Nat → List Nat → List (List Nat)
  | pending, [] => [pending]
  | pending, b :: rest =>
    if pending.length = 254 then
      pending :: (if b = 0 then [] :: encBlocks [] rest else encBlocks [b] rest)
    else if b = 0 then
      pending :: encBlocks [] rest
    else
      encBlocks (pending ++ [b]) rest

/-- Wire rendering of a block list: each block is its code byte
(`length + 1`) followed by its data bytes. -/
def serializeBlocks : List (List Nat) → List Nat
  | [] => []
  | d :: ds => ((d.length + 1) :: d) ++ serializeBlocks ds

/-- Payload reconstructed from a block list by a decoder whose previous
code byte was `c`: an implied zero is inserted before a block exactly
when the previous code was not `0xff`. -/
def decJoin : Nat → List (List Nat) → List Nat
  | _, [] => []
  | c, d :: ds => (if c = 255 then [] else [0]) ++ d ++ decJoin (d.length + 1) ds

/-- The `required` counter of the buffer-variant `cobs_encode`
(cobs.h:177), as a function of the running `code` and the remaining
input only; the writes into the output buffer never influence it. -/
def encRequired (code : Nat) : List Nat → Nat
  | [] => 0
  | b :: rest =>
    if b = 0 then
      1 + encRequired 1 rest
    else if code + 1 = 255 then
      (if rest.isEmpty then 1 else 2) + encRequired 1 rest
    else
      1 + encRequired (code + 1) rest

/-- Bulk encode, buffer variant (`cobs_encode(span, span)` at cobs.h:177).
`lenPos` is the offset of `dst_len` (the pending code slot), `datPos`
the offset of `dst_dat`; every store and every pointer advance is
guarded by the same `< out.size()` comparison as in the source.
Returns the number of `++required` increments performed (the C++
returns `1 + ` this) together with the final buffer contents. -/
def encBufGo (lenPos datPos code : Nat) : List Nat → List Nat → Nat × List Nat
  | [], buffer =>
      (0, if lenPos < buffer.length then buffer.set lenPos code else buffer)
  | b :: rest, buffer =>
    if b = 0 then
      let buffer1 := if lenPos < buffer.length then buffer.set lenPos code else buffer
      let datPos1 := if datPos < buffer1.length then datPos + 1 else datPos
      let r := encBufGo datPos datPos1 1 rest buffer1
      (1 + r.1, r.2)
    else
      let buffer1 := if datPos < buffer.length then buffer.set datPos b else buffer
      let datPos1 := if datPos < buffer.length then datPos + 1 else datPos
      if code + 1 = 255 then
        let buffer2 := if lenPos < buffer1.length then buffer1.set lenPos (code + 1) else buffer1
        if rest.isEmpty then
          let r := encBufGo datPos1 datPos1 1 rest buffer2
          (1 + r.1, r.2)
        else
          let datPos2 := if datPos1 < buffer2.length then datPos1 + 1 else datPos1
          let r := encBufGo datPos1 datPos2 1 rest buffer2
          (2 + r.1, r.2)
      else
        let r := encBufGo lenPos datPos1 (code + 1) rest buffer1
        (1 + r.1, r.2)

/-- `cobs_encode(span in, span out)`: returns the required size and the
final contents of the output buffer. -/
def cobs_encode_buf (input buffer : List Nat) : Nat × List Nat :=
  let r := encBufGo 0 1 1 input buffer
  (1 + r.1, r.2)

/-- One flushed chunk of the streaming encoder `cobs_encoder_t::flush`
(cobs.h:111): the count cell `buf[0]` is pre-incremented into the code
byte and the whole prefix of `buf` is handed to the callback. -/
def cobs_encoder_flush (pending : List Nat) : List Nat :=
  (pending.length + 1) :: pending

/-- `cobs_encoder_t::step` (cobs.h:96).  The state is the pending block
data (`buf[1..]` up to the count `buf[0]`).  Returns the chunks passed
to the callback and the new state. -/
def cobs_encoder_step (pending : List Nat) (b : Nat) : List (List Nat) × List Nat :=
  let s := if pending.length = 254 then ([cobs_encoder_flush pending], ([] : List Nat))
           else (([] : List (List Nat)), pending)
  if b = 0 then (s.1 ++ [cobs_encoder_flush s.2], [])
  else (s.1, s.2 ++ [b])

/-- `cobs_encoder_t::sink` over a byte list, one `step` per byte. -/
def cobs_encoder_run (pending : List Nat) : List Nat → List (List Nat) × List Nat
  | [] => ([], pending)
  | b :: rest =>
    let s := cobs_encoder_step pending b
    let r := cobs_encoder_run s.2 rest
    (s.1 ++ r.1, r.2)

/-- `cobs_encoder_t::stop` (cobs.h:81): appends the `0x00` delimiter to
the pending block and emits code byte, data and delimiter as one chunk,
then resets. -/
def cobs_encoder_stop (pending : List Nat) : List Nat :=
  ((pending.length + 1) :: pending) ++ [0]

/-- Bulk decode, callback variant (`cobs_decode(span, cb)` at cobs.h:315).
`code` is the previous code byte (initially `0xff`), `block` the number
of data bytes still expected.  A data run is consumed as one chunk of
`min block avail` bytes, after which the source executes the shared
trailing `if (block) --block;`, exactly as it does after reading a code
byte.  Returns the concatenation of all decoded bytes handed to the
callback together with the final value of `block` (nonzero means the
function emits `(nullptr, 0, block)` and returns 0). -/
def decGo : Nat → Nat → List Nat → List Nat × Nat
  | _, block, [] => ([], block)
  | code, block, b :: rest =>
    if block = 0 then
      if b = 0 then ([], 0)
      else
        let z : List Nat := if code = 255 then [] else [0]
        let r := decGo b (b - 1) rest
        (z ++ r.1, r.2)
    else
      let chunk := min block (rest.length + 1)
      let block2 := block - chunk
      let block3 := if block2 = 0 then block2 else block2 - 1
      let r := decGo code block3 (rest.drop (chunk - 1))
      ((b :: rest).take chunk ++ r.1, r.2)
termination_by _ _ input => input.length
decreasing_by
  all_goals simp only [List.length_drop, List.length_cons]
  all_goals omega

/-- `cobs_decode(span, cb)`: decoded bytes and final `block`. -/
def cobs_decode (input : List Nat) : List Nat × Nat :=
  decGo 255 0 input

/-- The value returned by `cobs_decode(span, cb)`: the total number of
decoded bytes, or 0 when the loop ends with `block` nonzero. -/
def cobs_decode_total (input : List Nat) : Nat :=
  if (cobs_decode input).2 = 0 then (cobs_decode input).1.length else 0

/-- The sequence of bytes the buffer-variant decoder attempts to write,
with the final `block`; the buffer variant (cobs.h:366) consumes its
input one byte per loop iteration. -/
def decBufOut (code block : Nat) : List Nat → List Nat × Nat
  | [] => ([], block)
  | b :: rest =>
    if block = 0 then
      if b = 0 then ([], 0)
      else
        let z : List Nat := if code = 255 then [] else [0]
        let r := decBufOut b (b - 1) rest
        (z ++ r.1, r.2)
    else
      let r := decBufOut code (block - 1) rest
      (b :: r.1, r.2)

/-- Bulk decode, buffer variant (`cobs_decode(span, span)` at cobs.h:366).
`pos` is the offset of `dst`; each store and pointer advance is guarded
by `pos < buffer.length` like `dst < dst_end` in the source.  Returns
the number of `++required` increments, the final `block`, the final
write position and the final buffer. -/
def decBufGo (code block : Nat) : List Nat → Nat → List Nat → Nat × Nat × Nat × List Nat
  | [], pos, buffer => (0, block, pos, buffer)
  | b :: rest, pos, buffer =>
    if block = 0 then
      if b = 0 then (0, 0, pos, buffer)
      else if code = 255 then
        decBufGo b (b - 1) rest pos buffer
      else
        let buffer1 := if pos < buffer.length then buffer.set pos 0 else buffer
        let pos1 := if pos < buffer.length then pos + 1 else pos
        let r := decBufGo b (b - 1) rest pos1 buffer1
        (1 + r.1, r.2)
    else
      let buffer1 := if pos < buffer.length then buffer.set pos b else buffer
      let pos1 := if pos < buffer.length then pos + 1 else pos
      let r := decBufGo code (block - 1) rest pos1 buffer1
      (1 + r.1, r.2)

/-- `cobs_decode(span in, span out)`: returns `block ? 0 : required`
and the final contents of the output buffer. -/
def cobs_decode_buf (input buffer : List Nat) : Nat × List Nat :=
  let r := decBufGo 255 0 input 0 buffer
  (if r.2.1 = 0 then r.1 else 0, r.2.2.2)

/-- Sequential overwrite of a buffer starting at `pos`, one `List.set`
per byte, mirroring `*dst++ = v`. -/
def overwrite : List Nat → Nat → List Nat → List Nat
  | buffer, _, [] => buffer
  | buffer, pos, v :: out => overwrite (buffer.set pos v) (pos + 1) out

/-- State of the streaming decoder `cobs_decoder_t` (cobs.h:235):
`code` is the expected block size (0 while awaiting a code byte) and
`buf` the data bytes received so far (`size = buf.length`). -/
structure cobs_decoder_t where
  code : Nat
  buf : List Nat
deriving DecidableEq

/-- `cobs_decoder_t::step` (cobs.h:281).  Returns the chunks
`(data, left)` passed to the callback and the new state. -/
def cobs_decoder_step (st : cobs_decoder_t) (b : Nat) :
    List (List Nat × Nat) × cobs_decoder_t :=
  if b = 0 then
    ([(st.buf, if st.code = 0 then 0 else st.code - st.buf.length - 1)], ⟨0, []⟩)
  else if st.code = 0 ∨ st.buf.length + 1 = st.code then
    let buf1 := if st.code ≠ 0 ∧ st.code ≠ 255 then st.buf ++ [0] else st.buf
    ([(buf1, 0)], ⟨b, []⟩)
  else
    ([], ⟨st.code, st.buf ++ [b]⟩)

/-- `cobs_decoder_t::sink` over a byte list, one `step` per byte. -/
def cobs_decoder_run (st : cobs_decoder_t) : List Nat → List (List Nat × Nat) × cobs_decoder_t
  | [] => ([], st)
  | b :: rest =>
    let s := cobs_decoder_step st b
    let r := cobs_decoder_run s.2 rest
    (s.1 ++ r.1, r.2)

/-- `cobs_decoder_t::stop` (cobs.h:267): emits the buffered data once
with `left = code ? code - size - 1 : 0`, then resets. -/
def cobs_decoder_stop (st : cobs_decoder_t) : (List Nat × Nat) × cobs_decoder_t :=
  ((st.buf, if st.code = 0 then 0 else st.code - st.buf.length - 1), ⟨0, []⟩)

/-- The `left` value `stop()` would report from a given state. -/
def decLeft (st : cobs_decoder_t) : Nat :=
  if st.code = 0 then 0 else st.code - st.buf.length - 1

/-- Internal invariant of the streaming decoder state. -/
def decInv (st : cobs_decoder_t) : Prop :=
  st.code ≤ 255 ∧ (st.code = 0 → st.buf = []) ∧ (st.code ≠ 0 → st.buf.length + 1 ≤ st.code)

/-- Number of data bytes still needed to complete the block structure
after greedily parsing `input` while `k` bytes of the current block are
outstanding. -/
def completeRemaining : Nat → List Nat → Nat
  | k, [] => k
  | 0, c :: rest => completeRemaining (c - 1) rest
  | k + 1, _ :: rest => completeRemaining k rest

/-- A delimiterless well-formed COBS frame: a sequence of complete
blocks, each a code byte `c ∈ [1, 255]` followed by exactly `c - 1`
data bytes. -/
inductive Blocks : List Nat → Prop
  | nil : Blocks []
  | cons (c : Nat) (d rest : List Nat) :
      c ≠ 0 → c ≤ 255 → d.length = c - 1 → Blocks rest → Blocks (c :: (d ++ rest))

end Cobs

namespace Cobs

lemma encGo_eq_serialize (pending input : List Nat) :
    encGo pending input = serializeBlocks (encBlocks pending input) := by
  induction pending, input using encGo.induct with
  | case1 pending => simp [encGo, encBlocks, serializeBlocks]
  | case2 pending b rest hfull ih1 ih2 =>
    by_cases hb : b = 0 <;>
      simp [encGo, encBlocks, serializeBlocks, hfull, hb, ih1, ih2]
  | case3 pending rest hfull ih =>
    simp [encGo, encBlocks, serializeBlocks, hfull, ih]
  | case4 pending b rest hfull hb ih =>
    simp [encGo, encBlocks, serializeBlocks, hfull, hb, ih]

lemma decJoin_encBlocks (pending input : List Nat) :
    ∀ c, decJoin c (encBlocks pending input) =
      (if c = 255 then [] else [0]) ++ pending ++ input := by
  induction pending, input using encBlocks.induct with
  | case1 pending => intro c; simp [encBlocks, decJoin]
  | case2 pending b rest hfull ih1 ih2 =>
    intro c
    by_cases hb : b = 0
    · simp [encBlocks, hfull, hb, decJoin, ih1, ih2]
    · simp [encBlocks, hfull, hb, decJoin, ih1, ih2]
  | case3 pending rest hfull ih =>
    intro c
    have hne : ¬ (pending.length + 1 = 255) := by omega
    simp [encBlocks, hfull, decJoin, ih, hne]
  | case4 pending b rest hfull hb ih =>
    intro c
    simp [encBlocks, hfull, hb, decJoin, ih]

lemma encBlocks_bytes (pending input : List Nat) :
    pending.length ≤ 254 → (∀ x ∈ pending, 1 ≤ x ∧ x ≤ 255) →
      (∀ b ∈ input, b ≤ 255) →
      ∀ d ∈ encBlocks pending input, d.length ≤ 254 ∧ ∀ x ∈ d, 1 ≤ x ∧ x ≤ 255 := by
  induction pending, input using encBlocks.induct with
  | case1 pending =>
    intro hp hpb _ d hd
    simp only [encBlocks, List.mem_singleton] at hd
    subst hd
    exact ⟨hp, hpb⟩
  | case2 pending b rest hfull ih1 ih2 =>
    intro hp hpb hin d hd
    by_cases hb : b = 0
    · subst hb
      simp [encBlocks, hfull] at hd
      rcases hd with rfl | rfl | hd
      · exact ⟨hp, hpb⟩
      · simp
      · exact ih1 (by simp) (by simp) (fun x hx => hin x (by simp [hx])) d hd
    · simp [encBlocks, hfull, hb] at hd
      rcases hd with rfl | hd
      · exact ⟨hp, hpb⟩
      · refine ih2 (by simp) ?_ (fun x hx => hin x (by simp [hx])) d hd
        intro x hx
        simp only [List.mem_singleton] at hx
        subst hx
        exact ⟨Nat.one_le_iff_ne_zero.mpr hb, hin x (by simp)⟩
  | case3 pending rest hfull ih =>
    intro hp hpb hin d hd
    simp [encBlocks, hfull] at hd
    rcases hd with rfl | hd
    · exact ⟨hp, hpb⟩
    · exact ih (by simp) (by simp) (fun x hx => hin x (by simp [hx])) d hd
  | case4 pending b rest hfull hb ih =>
    intro hp hpb hin d hd
    simp only [encBlocks, if_neg hfull, if_neg hb] at hd
    refine ih ?_ ?_ (fun x hx => hin x (by simp [hx])) d hd
    · simp only [List.length_append, List.length_singleton]
      omega
    · intro x hx
      rcases List.mem_append.mp hx with hx | hx
      · exact hpb x hx
      · simp only [List.mem_singleton] at hx
        subst hx
        exact ⟨Nat.one_le_iff_ne_zero.mpr hb, hin x (by simp)⟩

lemma serializeBlocks_bytes (ds : List (List Nat))
    (h : ∀ d ∈ ds, d.length ≤ 254 ∧ ∀ x ∈ d, 1 ≤ x ∧ x ≤ 255) :
    ∀ x ∈ serializeBlocks ds, 1 ≤ x ∧ x ≤ 255 := by
  induction ds with
  | nil => simp [serializeBlocks]
  | cons d ds ih =>
    intro x hx
    simp only [serializeBlocks, List.cons_append, List.mem_cons, List.mem_append] at hx
    rcases hx with rfl | hx | hx
    · have := (h d (by simp)).1
      omega
    · exact (h d (by simp)).2 x hx
    · exact ih (fun d hd => h d (by simp [hd])) x hx

lemma encoder_run_eq (pending input : List Nat) :
    (cobs_encoder_run pending input).1.flatten ++
        cobs_encoder_stop (cobs_encoder_run pending input).2 =
      encGo pending input ++ [0] := by
  induction pending, input using encGo.induct with
  | case1 pending =>
    simp [cobs_encoder_run, cobs_encoder_stop, encGo]
  | case2 pending b rest hfull ih1 ih2 =>
    by_cases hb : b = 0
    · subst hb
      simp only [cobs_encoder_run, cobs_encoder_step, cobs_encoder_flush, hfull, if_pos rfl,
        List.flatten_append, List.flatten_cons, List.flatten_nil, List.append_assoc] at ih1 ⊢
      simp [encGo, hfull, ih1]
    · simp only [cobs_encoder_run, cobs_encoder_step, cobs_encoder_flush, hfull, if_pos rfl,
        if_neg hb, List.flatten_append, List.flatten_cons, List.flatten_nil,
        List.append_assoc, List.nil_append] at ih2 ⊢
      simp [encGo, hfull, hb, ih2]
  | case3 pending rest hfull ih =>
    simp only [cobs_encoder_run, cobs_encoder_step, cobs_encoder_flush, hfull, if_neg hfull,
      if_pos rfl, List.flatten_append, List.flatten_cons, List.flatten_nil,
      List.append_assoc] at ih ⊢
    simp [encGo, hfull, ih]
  | case4 pending b rest hfull hb ih =>
    simp only [cobs_encoder_run, cobs_encoder_step, cobs_encoder_flush, if_neg hfull,
      if_neg hb] at ih ⊢
    simp [encGo, hfull, hb, ih]

lemma encoder_run_cons (pending : List Nat) (b : Nat) (rest : List Nat) :
    cobs_encoder_run pending (b :: rest) =
      ((cobs_encoder_step pending b).1 ++
         (cobs_encoder_run (cobs_encoder_step pending b).2 rest).1,
       (cobs_encoder_run (cobs_encoder_step pending b).2 rest).2) := rfl

lemma encoder_step_full_zero {pending : List Nat} (h : pending.length = 254) :
    cobs_encoder_step pending 0 = ([cobs_encoder_flush pending, cobs_encoder_flush []], []) := by
  simp [cobs_encoder_step, h]

lemma encoder_step_full_pos {pending : List Nat} {b : Nat} (h : pending.length = 254)
    (hb : b ≠ 0) : cobs_encoder_step pending b = ([cobs_encoder_flush pending], [b]) := by
  simp [cobs_encoder_step, h, hb]

lemma encoder_step_zero {pending : List Nat} (h : ¬ pending.length = 254) :
    cobs_encoder_step pending 0 = ([cobs_encoder_flush pending], []) := by
  simp [cobs_encoder_step, h]

lemma encoder_step_pos {pending : List Nat} {b : Nat} (h : ¬ pending.length = 254)
    (hb : b ≠ 0) : cobs_encoder_step pending b = ([], pending ++ [b]) := by
  simp [cobs_encoder_step, h, hb]

lemma encoder_flush_bytes {pending : List Nat} (hp : pending.length ≤ 254)
    (hpb : ∀ x ∈ pending, 1 ≤ x ∧ x ≤ 255) :
    ∀ x ∈ cobs_encoder_flush pending, 1 ≤ x ∧ x ≤ 255 := by
  intro x hx
  simp only [cobs_encoder_flush, List.mem_cons] at hx
  rcases hx with rfl | hx
  · omega
  · exact hpb x hx

lemma encoder_run_chunks (input : List Nat) :
    ∀ pending, pending.length ≤ 254 → (∀ x ∈ pending, 1 ≤ x ∧ x ≤ 255) →
      (∀ b ∈ input, b ≤ 255) →
      (∀ ch ∈ (cobs_encoder_run pending input).1, ∀ x ∈ ch, 1 ≤ x ∧ x ≤ 255) ∧
      (cobs_encoder_run pending input).2.length ≤ 254 ∧
      (∀ x ∈ (cobs_encoder_run pending input).2, 1 ≤ x ∧ x ≤ 255) := by
  induction input with
  | nil =>
    intro pending hp hpb _
    exact ⟨by simp [cobs_encoder_run], hp, hpb⟩
  | cons b rest ih =>
    intro pending hp hpb hin
    have hb255 : b ≤ 255 := hin b (by simp)
    have hinr : ∀ x ∈ rest, x ≤ 255 := fun x hx => hin x (by simp [hx])
    have hflush := encoder_flush_bytes hp hpb
    by_cases hfull : pending.length = 254 <;> by_cases hb : b = 0
    · subst hb
      have ihr := ih [] (by simp) (by simp) hinr
      rw [encoder_run_cons, encoder_step_full_zero hfull]
      refine ⟨?_, ihr.2.1, ihr.2.2⟩
      intro ch hch
      simp at hch
      rcases hch with rfl | rfl | hch
      · exact hflush
      · intro x hx
        simp only [cobs_encoder_flush, List.length_nil, List.mem_singleton] at hx
        omega
      · exact ihr.1 ch hch
    · have ihr := ih [b] (by simp) ?_ hinr
      · rw [encoder_run_cons, encoder_step_full_pos hfull hb]
        refine ⟨?_, ihr.2.1, ihr.2.2⟩
        intro ch hch
        simp at hch
        rcases hch with rfl | hch
        · exact hflush
        · exact ihr.1 ch hch
      · intro x hx
        simp only [List.mem_singleton] at hx
        subst hx
        exact ⟨Nat.one_le_iff_ne_zero.mpr hb, hb255⟩
    · subst hb
      have ihr := ih [] (by simp) (by simp) hinr
      rw [encoder_run_cons, encoder_step_zero hfull]
      refine ⟨?_, ihr.2.1, ihr.2.2⟩
      intro ch hch
      simp at hch
      rcases hch with rfl | hch
      · exact hflush
      · exact ihr.1 ch hch
    · have ihr := ih (pending ++ [b]) ?_ ?_ hinr
      · rw [encoder_run_cons, encoder_step_pos hfull hb]
        refine ⟨?_, ihr.2.1, ihr.2.2⟩
        intro ch hch
        simp only [List.nil_append] at hch
        exact ihr.1 ch hch
      · simp only [List.length_append, List.length_singleton]
        omega
      · intro x hx
        rcases List.mem_append.mp hx with hx | hx
        · exact hpb x hx
        · simp only [List.mem_singleton] at hx
          subst hx
          exact ⟨Nat.one_le_iff_ne_zero.mpr hb, hb255⟩

end Cobs

namespace Cobs

lemma encBufGo_required (input : List Nat) :
    ∀ lenPos datPos code (buffer : List Nat),
      (encBufGo lenPos datPos code input buffer).1 = encRequired code input := by
  induction input with
  | nil =>
    intro lenPos datPos code buffer
    simp [encBufGo, encRequired]
  | cons b rest ih =>
    intro lenPos datPos code buffer
    by_cases hb : b = 0
    · subst hb
      simp [encBufGo, encRequired, ih]
    · by_cases hc : code + 1 = 255
      · by_cases hr : rest.isEmpty <;>
          simp [encBufGo, encRequired, hb, hc, hr, ih]
      · simp [encBufGo, encRequired, hb, hc, ih]

lemma encGo_length (pending input : List Nat) :
    pending.length ≤ 254 →
      (encGo pending input).length =
        pending.length + 1 + (if pending.length = 254 ∧ input ≠ [] then 1 else 0) +
          encRequired (if pending.length = 254 then 1 else pending.length + 1) input := by
  induction pending, input using encGo.induct with
  | case1 pending =>
    intro hp
    simp [encGo, encRequired]
  | case2 pending b rest hfull ih1 ih2 =>
    intro hp
    have h1 : (encGo [] rest).length = 1 + encRequired 1 rest := by
      have := ih1 (by simp)
      simp at this
      omega
    by_cases hb : b = 0
    · subst hb
      simp only [encGo, encRequired, hfull, h1]
      simp
      all_goals omega
    · have h2 : (encGo [b] rest).length = 2 + encRequired 2 rest := by
        have := ih2 (by simp)
        simp at this
        omega
      simp only [encGo, encRequired, hfull, hb, h2]
      simp
      all_goals omega
  | case3 pending rest hfull ih =>
    intro hp
    have h1 : (encGo [] rest).length = 1 + encRequired 1 rest := by
      have := ih (by simp)
      simp at this
      omega
    simp only [encGo, encRequired, hfull, h1]
    simp [hfull]
    all_goals omega
  | case4 pending b rest hfull hb ih =>
    intro hp
    have h1 := ih (by simp only [List.length_append, List.length_singleton]; omega)
    simp only [List.length_append, List.length_singleton] at h1
    simp only [encGo, encRequired, hfull, hb]
    simp [hfull, hb]
    rw [h1]
    split_ifs at h1 ⊢ <;>
      first
      | omega
      | (simp_all [List.isEmpty_iff]; omega)
      | simp_all [List.isEmpty_iff]

end Cobs

namespace Cobs

lemma set_append_len (L1 : List Nat) (x v : Nat) (L2 : List Nat) :
    (L1 ++ x :: L2).set L1.length v = L1 ++ v :: L2 := by
  induction L1 with
  | nil => rfl
  | cons a L1 ih => simpa [List.set] using ih

lemma encBlocks_full_cons {p : List Nat} (h : p.length = 254) (x : Nat) (xs : List Nat) :
    encBlocks p (x :: xs) = p :: encBlocks [] (x :: xs) := by
  by_cases hx : x = 0 <;> simp [encBlocks, h, hx]

lemma cobs_encode_buf_required (input buffer : List Nat) :
    (cobs_encode_buf input buffer).1 = (cobs_encode input).length := by
  have h := encGo_length [] input (by simp)
  simp only [cobs_encode_buf, cobs_encode]
  rw [encBufGo_required]
  simp at h
  omega

lemma set_mid (done pending free' : List Nat) (j f0 b : Nat) :
    (done ++ j :: (pending ++ f0 :: free')).set (done.length + 1 + pending.length) b =
      done ++ j :: (pending ++ b :: free') := by
  have h1 : done ++ j :: (pending ++ f0 :: free') = (done ++ j :: pending) ++ f0 :: free' := by
    simp
  have h2 : done.length + 1 + pending.length = (done ++ j :: pending).length := by
    simp
    omega
  rw [h1, h2, set_append_len]
  simp

lemma encBufGo_step_zero (lenPos datPos code : Nat) (rest buffer : List Nat)
    (hg1 : lenPos < buffer.length) (hg2 : datPos < buffer.length) :
    encBufGo lenPos datPos code (0 :: rest) buffer =
      (1 + (encBufGo datPos (datPos + 1) 1 rest (buffer.set lenPos code)).1,
       (encBufGo datPos (datPos + 1) 1 rest (buffer.set lenPos code)).2) := by
  simp [encBufGo, hg1, hg2]

lemma encBufGo_step_data {b : Nat} (lenPos datPos code : Nat) (rest buffer : List Nat)
    (hb : b ≠ 0) (hc : ¬ code + 1 = 255) (hg : datPos < buffer.length) :
    encBufGo lenPos datPos code (b :: rest) buffer =
      (1 + (encBufGo lenPos (datPos + 1) (code + 1) rest (buffer.set datPos b)).1,
       (encBufGo lenPos (datPos + 1) (code + 1) rest (buffer.set datPos b)).2) := by
  simp [encBufGo, hb, hc, hg]

lemma encBufGo_step_flush_end {b : Nat} (lenPos datPos code : Nat) (buffer : List Nat)
    (hb : b ≠ 0) (hc : code + 1 = 255) (hg : datPos < buffer.length)
    (hgl : lenPos < buffer.length) :
    encBufGo lenPos datPos code [b] buffer =
      (1, (encBufGo (datPos + 1) (datPos + 1) 1 []
            ((buffer.set datPos b).set lenPos (code + 1))).2) := by
  simp [encBufGo, hb, hc, hg, hgl, List.length_set]

lemma encBufGo_step_flush_cons {b : Nat} (lenPos datPos code : Nat) (r : Nat)
    (rest' buffer : List Nat)
    (hb : b ≠ 0) (hc : code + 1 = 255) (hg : datPos < buffer.length)
    (hg2 : datPos + 1 < buffer.length) (hgl : lenPos < buffer.length) :
    encBufGo lenPos datPos code (b :: r :: rest') buffer =
      (2 + (encBufGo (datPos + 1) (datPos + 2) 1 (r :: rest')
              ((buffer.set datPos b).set lenPos (code + 1))).1,
       (encBufGo (datPos + 1) (datPos + 2) 1 (r :: rest')
              ((buffer.set datPos b).set lenPos (code + 1))).2) := by
  have h2 : datPos + 1 + 1 = datPos + 2 := by omega
  simp [encBufGo, hb, hc, hg, hg2, hgl, h2, List.length_set]

lemma encBufGo_layout (input : List Nat) :
    ∀ (pending done free : List Nat) (j lenPos datPos code : Nat),
      lenPos = done.length →
      datPos = done.length + 1 + pending.length →
      code = pending.length + 1 →
      pending.length ≤ 253 →
      2 * input.length + 1 ≤ free.length →
      ∃ tail : List Nat,
        encBufGo lenPos datPos code input (done ++ j :: (pending ++ free)) =
          (encRequired code input,
           done ++ serializeBlocks (encBlocks pending input) ++ tail) := by
  induction input with
  | nil =>
    intro pending done free j lenPos datPos code hlen hdat hcode hp hf
    subst hlen hdat hcode
    refine ⟨free, ?_⟩
    have hg : done.length < (done ++ j :: (pending ++ free)).length := by
      simp
    simp only [encBufGo, encBlocks, serializeBlocks, encRequired, if_pos hg]
    rw [set_append_len]
    simp
  | cons b rest ih =>
    intro pending done free j lenPos datPos code hlen hdat hcode hp hf
    subst hlen hdat hcode
    simp only [List.length_cons] at hf
    obtain ⟨f0, free', rfl⟩ : ∃ f0 free', free = f0 :: free' := by
      cases free with
      | nil => simp at hf
      | cons f0 free' => exact ⟨f0, free', rfl⟩
    simp only [List.length_cons] at hf
    have hflen : 2 * rest.length + 2 ≤ free'.length := by omega
    by_cases hb : b = 0
    · subst hb
      have hg1 : done.length < (done ++ j :: (pending ++ f0 :: free')).length := by simp
      have hg2 : done.length + 1 + pending.length <
          (done ++ j :: (pending ++ f0 :: free')).length := by
        simp
        omega
      rw [encBufGo_step_zero _ _ _ _ _ hg1 hg2, set_append_len]
      have hresh : done ++ (pending.length + 1) :: (pending ++ f0 :: free') =
          (done ++ (pending.length + 1) :: pending) ++ f0 :: ([] ++ free') := by
        simp
      rw [hresh]
      obtain ⟨tail, htail⟩ := ih [] (done ++ (pending.length + 1) :: pending) free' f0
        (done.length + 1 + pending.length) (done.length + 1 + pending.length + 1) 1
        (by simp; omega) (by simp; omega) (by simp) (by simp) (by omega)
      refine ⟨tail, ?_⟩
      rw [htail]
      have hnf : ¬ (pending.length = 254) := by omega
      simp only [Prod.mk.injEq]
      refine ⟨by simp [encRequired], ?_⟩
      simp [encBlocks, serializeBlocks, hnf]
    · by_cases hc : pending.length + 1 + 1 = 255
      · -- the data byte completes a full block; flush within this iteration
        have hgl : done.length < (done ++ j :: (pending ++ f0 :: free')).length := by simp
        have hg : done.length + 1 + pending.length <
            (done ++ j :: (pending ++ f0 :: free')).length := by
          simp
          omega
        have hser : serializeBlocks (encBlocks pending [b]) =
            (pending.length + 1 + 1) :: (pending ++ [b]) := by
          have hnf : ¬ (pending.length = 254) := by omega
          simp [encBlocks, hnf, hb, serializeBlocks]
          try omega
        cases rest with
        | nil =>
          rw [encBufGo_step_flush_end _ _ _ _ hb hc hg hgl, set_mid, set_append_len]
          cases free' with
          | nil =>
            refine ⟨[], ?_⟩
            simp only [encBufGo]
            rw [if_neg (show ¬ (done.length + 1 + pending.length + 1 <
              (done ++ (pending.length + 1 + 1) :: (pending ++ b :: ([] : List Nat))).length) from
              by simp; omega)]
            simp [hser, encRequired, hb, hc]
          | cons f1 free'' =>
            refine ⟨1 :: free'', ?_⟩
            simp only [encBufGo]
            rw [if_pos (show done.length + 1 + pending.length + 1 <
              (done ++ (pending.length + 1 + 1) :: (pending ++ b :: f1 :: free'')).length from
              by simp; omega)]
            rw [show done ++ (pending.length + 1 + 1) :: (pending ++ b :: f1 :: free'') =
              (done ++ (pending.length + 1 + 1) :: (pending ++ [b])) ++ f1 :: free'' from by simp]
            rw [show done.length + 1 + pending.length + 1 =
              (done ++ (pending.length + 1 + 1) :: (pending ++ [b])).length from by simp; omega]
            rw [set_append_len]
            simp [hser, encRequired, hb, hc]
        | cons r rest' =>
          have hg2 : done.length + 1 + pending.length + 1 <
              (done ++ j :: (pending ++ f0 :: free')).length := by
            simp
            omega
          rw [encBufGo_step_flush_cons _ _ _ _ _ _ hb hc hg hg2 hgl, set_mid, set_append_len]
          obtain ⟨f1, free'', rfl⟩ : ∃ f1 free'', free' = f1 :: free'' := by
            cases free' with
            | nil => simp at hflen
            | cons f1 free'' => exact ⟨f1, free'', rfl⟩
          rw [show done ++ (pending.length + 1 + 1) :: (pending ++ b :: f1 :: free'') =
            (done ++ (pending.length + 1 + 1) :: (pending ++ [b])) ++ f1 :: ([] ++ free'') from
            by simp]
          obtain ⟨tail, htail⟩ := ih []
            (done ++ (pending.length + 1 + 1) :: (pending ++ [b])) free'' f1
            (done.length + 1 + pending.length + 1) (done.length + 1 + pending.length + 2) 1
            (by simp; omega) (by simp; omega) (by simp) (by simp)
            (by simp at hflen ⊢; omega)
          rw [htail]
          refine ⟨tail, ?_⟩
          have hnf : ¬ (pending.length = 254) := by omega
          have hful : (pending ++ [b]).length = 254 := by simp; omega
          simp only [Prod.mk.injEq]
          refine ⟨by simp [encRequired, hb, hc], ?_⟩
          have hblocks : encBlocks pending (b :: r :: rest') =
              (pending ++ [b]) :: encBlocks [] (r :: rest') := by
            rw [show encBlocks pending (b :: r :: rest') =
              encBlocks (pending ++ [b]) (r :: rest') from by simp [encBlocks, hnf, hb]]
            exact encBlocks_full_cons hful r rest'
          rw [hblocks]
          simp [serializeBlocks, hful]
          try omega
      · -- plain data byte, no flush
        have hg : done.length + 1 + pending.length <
            (done ++ j :: (pending ++ f0 :: free')).length := by
          simp
          omega
        rw [encBufGo_step_data _ _ _ _ _ hb hc hg, set_mid]
        have hresh : done ++ j :: (pending ++ b :: free') =
            done ++ j :: ((pending ++ [b]) ++ free') := by
          simp
        rw [hresh]
        obtain ⟨tail, htail⟩ := ih (pending ++ [b]) done free' j
          done.length (done.length + 1 + pending.length + 1) (pending.length + 1 + 1)
          rfl (by simp; omega) (by simp) (by simp; omega) (by omega)
        refine ⟨tail, ?_⟩
        rw [htail]
        have hnf : ¬ (pending.length = 254) := by omega
        simp only [Prod.mk.injEq]
        refine ⟨by simp [encRequired, hb, hc], ?_⟩
        simp [encBlocks, hnf, hb]

end Cobs

namespace Cobs

lemma decGo_nil (c : Nat) : decGo c 0 [] = ([], 0) := by
  simp [decGo.eq_def]

lemma decGo_delim (c : Nat) : decGo c 0 [0] = ([], 0) := by
  simp [decGo.eq_def]

lemma decGo_block (d : List Nat) (c : Nat) (rest : List Nat) :
    decGo c d.length (d ++ rest) = (d ++ (decGo c 0 rest).1, (decGo c 0 rest).2) := by
  cases d with
  | nil => simp
  | cons x d' =>
    rw [decGo.eq_def]
    have h2 : min (d'.length + 1) ((d' ++ rest).length + 1) = d'.length + 1 := by
      simp [List.length_append]
    simp [h2, List.drop_left, List.take_left]

lemma decGo_serialize (ds : List (List Nat)) (tail : List Nat)
    (htail : ∀ c, decGo c 0 tail = ([], 0)) :
    ∀ c, decGo c 0 (serializeBlocks ds ++ tail) = (decJoin c ds, 0) := by
  induction ds with
  | nil =>
    intro c
    simpa [serializeBlocks, decJoin] using htail c
  | cons d ds ih =>
    intro c
    have hre : serializeBlocks (d :: ds) ++ tail =
        (d.length + 1) :: (d ++ (serializeBlocks ds ++ tail)) := by
      simp [serializeBlocks]
    rw [hre, decGo.eq_def]
    have hne : ¬ (d.length + 1 = 0) := by omega
    simp only [if_pos rfl, if_neg hne, Nat.add_sub_cancel, ite_true, ite_false]
    rw [decGo_block, ih]
    simp [decJoin]

lemma decBufOut_nil (c : Nat) : decBufOut c 0 [] = ([], 0) := rfl

lemma decBufOut_delim (c : Nat) : decBufOut c 0 [0] = ([], 0) := by
  simp [decBufOut]

lemma decBufOut_block (d : List Nat) (c : Nat) (rest : List Nat) :
    decBufOut c d.length (d ++ rest) = (d ++ (decBufOut c 0 rest).1, (decBufOut c 0 rest).2) := by
  induction d with
  | nil => simp
  | cons x d' ih =>
    have hne : ¬ (d'.length + 1 = 0) := by omega
    simp only [List.cons_append, List.length_cons, decBufOut, if_neg hne,
      Nat.add_sub_cancel, List.append_eq]
    rw [ih]

lemma decBufOut_serialize (ds : List (List Nat)) (tail : List Nat)
    (htail : ∀ c, decBufOut c 0 tail = ([], 0)) :
    ∀ c, decBufOut c 0 (serializeBlocks ds ++ tail) = (decJoin c ds, 0) := by
  induction ds with
  | nil =>
    intro c
    simpa [serializeBlocks, decJoin] using htail c
  | cons d ds ih =>
    intro c
    have hre : serializeBlocks (d :: ds) ++ tail =
        (d.length + 1) :: (d ++ (serializeBlocks ds ++ tail)) := by
      simp [serializeBlocks]
    rw [hre]
    have hne : ¬ (d.length + 1 = 0) := by omega
    simp only [decBufOut, if_pos rfl, if_neg hne, Nat.add_sub_cancel, ite_true, ite_false]
    rw [decBufOut_block, ih]
    simp [decJoin]

end Cobs

namespace Cobs

lemma overwrite_spec (out : List Nat) :
    ∀ (buffer : List Nat) (pos : Nat), pos + out.length ≤ buffer.length →
      overwrite buffer pos out = buffer.take pos ++ out ++ buffer.drop (pos + out.length) := by
  induction out with
  | nil =>
    intro buffer pos h
    simp [overwrite]
  | cons v out ih =>
    intro buffer pos h
    simp only [List.length_cons] at h
    have hpos : pos < buffer.length := by omega
    rw [overwrite, ih (buffer.set pos v) (pos + 1) (by simp [List.length_set]; omega)]
    rw [List.set_eq_take_cons_drop v hpos]
    have hlen : (buffer.take pos).length = pos := by
      simp
      omega
    rw [show pos + 1 = (buffer.take pos).length + 1 from by omega]
    rw [show (buffer.take pos ++ v :: buffer.drop ((buffer.take pos).length + 1)) =
      (buffer.take pos ++ [v]) ++ buffer.drop ((buffer.take pos).length + 1) from by simp]
    have hlen2 : (buffer.take pos ++ [v]).length = (buffer.take pos).length + 1 := by
      simp
    rw [show (buffer.take pos).length + 1 = (buffer.take pos ++ [v]).length from by omega]
    rw [List.take_left, show (buffer.take pos ++ [v]).length + out.length =
      (buffer.take pos ++ [v]).length + out.length from rfl]
    rw [List.drop_append]
    simp [hlen]
    congr 1
    omega

end Cobs

namespace Cobs

lemma decBufGo_out (input : List Nat) :
    ∀ (code block pos : Nat) (buffer : List Nat),
      pos + (decBufOut code block input).1.length ≤ buffer.length →
      decBufGo code block input pos buffer =
        ((decBufOut code block input).1.length, (decBufOut code block input).2,
         pos + (decBufOut code block input).1.length,
         overwrite buffer pos (decBufOut code block input).1) := by
  induction input with
  | nil =>
    intro code block pos buffer h
    simp [decBufGo, decBufOut, overwrite]
  | cons b rest ih =>
    intro code block pos buffer h
    by_cases hblk : block = 0
    · subst hblk
      by_cases hb : b = 0
      · subst hb
        simp [decBufGo, decBufOut, overwrite]
      · by_cases hcode : code = 255
        · subst hcode
          simp only [decBufOut, if_pos rfl, if_neg hb, ite_true, ite_false,
            List.nil_append] at h ⊢
          simp only [decBufGo, if_pos rfl, if_neg hb, ite_true, ite_false]
          exact ih _ _ _ _ h
        · simp only [decBufOut, if_pos rfl, if_neg hb, hcode, ite_true, ite_false,
            List.cons_append, List.nil_append, List.length_cons] at h ⊢
          have hpos : pos < buffer.length := by omega
          simp only [decBufGo, if_pos rfl, if_neg hb, hcode, ite_true, ite_false,
            if_pos hpos, if_neg hcode]
          rw [ih _ _ _ _ (by simp only [List.length_set]; omega)]
          simp only [Prod.mk.injEq]
          exact ⟨by omega, trivial, by omega, rfl⟩
    · simp only [decBufOut, if_neg hblk, List.length_cons] at h ⊢
      have hpos : pos < buffer.length := by omega
      simp only [decBufGo, if_neg hblk, if_pos hpos]
      rw [ih _ _ _ _ (by simp only [List.length_set]; omega)]
      simp only [Prod.mk.injEq]
      exact ⟨by omega, trivial, by omega, rfl⟩

end Cobs

namespace Cobs

lemma decoder_run_cons (st : cobs_decoder_t) (b : Nat) (rest : List Nat) :
    cobs_decoder_run st (b :: rest) =
      ((cobs_decoder_step st b).1 ++ (cobs_decoder_run (cobs_decoder_step st b).2 rest).1,
       (cobs_decoder_run (cobs_decoder_step st b).2 rest).2) := rfl

lemma decoder_step_inv (st : cobs_decoder_t) (b : Nat) (h : decInv st) (hb : b ≤ 255) :
    decInv (cobs_decoder_step st b).2 := by
  obtain ⟨h1, h2, h3⟩ := h
  by_cases hz : b = 0
  · subst hz
    simp [cobs_decoder_step, decInv]
  · by_cases hcond : st.code = 0 ∨ st.buf.length + 1 = st.code
    · simp only [cobs_decoder_step, if_neg hz, if_pos hcond]
      refine ⟨hb, ?_, ?_⟩
      · intro h0
        exact absurd h0 hz
      · intro _
        simp only [List.length_nil]
        omega
    · simp only [cobs_decoder_step, if_neg hz, if_neg hcond]
      push_neg at hcond
      refine ⟨h1, fun h0 => absurd h0 hcond.1, fun _ => ?_⟩
      have := h3 hcond.1
      have hne := hcond.2
      simp only [List.length_append, List.length_singleton]
      omega

lemma decoder_run_inv (input : List Nat) :
    ∀ st, (∀ x ∈ input, x ≤ 255) → decInv st →
      decInv (cobs_decoder_run st input).2 := by
  induction input with
  | nil => intro st _ h; exact h
  | cons b rest ih =>
    intro st hin h
    rw [decoder_run_cons]
    exact ih _ (fun x hx => hin x (by simp [hx]))
      (decoder_step_inv st b h (hin b (by simp)))

lemma decoder_step_chunks (st : cobs_decoder_t) (b : Nat) (h : decInv st) :
    ∀ e ∈ (cobs_decoder_step st b).1, e.1.length ≤ 254 := by
  obtain ⟨h1, h2, h3⟩ := h
  intro e he
  by_cases hz : b = 0
  · subst hz
    simp [cobs_decoder_step] at he
    subst he
    by_cases hc : st.code = 0
    · simp [h2 hc]
    · have := h3 hc
      simp only
      omega
  · by_cases hcond : st.code = 0 ∨ st.buf.length + 1 = st.code
    · simp only [cobs_decoder_step, if_neg hz, if_pos hcond, List.mem_singleton] at he
      subst he
      by_cases hc : st.code ≠ 0 ∧ st.code ≠ 255
      · have := h3 hc.1
        have hne := hc.2
        simp only [if_pos hc, List.length_append, List.length_singleton]
        omega
      · simp only [if_neg hc]
        by_cases hc0 : st.code = 0
        · have hbuf : st.buf = [] := h2 hc0
          rw [hbuf]
          simp
        · have := h3 hc0
          omega
    · simp [cobs_decoder_step, if_neg hz, if_neg hcond] at he

lemma decoder_run_chunks (input : List Nat) :
    ∀ st, (∀ x ∈ input, x ≤ 255) → decInv st →
      ∀ e ∈ (cobs_decoder_run st input).1, e.1.length ≤ 254 := by
  induction input with
  | nil => intro st _ _ e he; simp [cobs_decoder_run] at he
  | cons b rest ih =>
    intro st hin h e he
    rw [decoder_run_cons] at he
    rcases List.mem_append.mp he with he | he
    · exact decoder_step_chunks st b h e he
    · exact ih _ (fun x hx => hin x (by simp [hx]))
        (decoder_step_inv st b h (hin b (by simp))) e he

lemma decLeft_zero_iff (st : cobs_decoder_t) (h : decInv st) :
    decLeft st = 0 ↔ (st.code = 0 ∨ st.buf.length + 1 = st.code) := by
  obtain ⟨h1, h2, h3⟩ := h
  unfold decLeft
  by_cases hc : st.code = 0
  · simp [hc]
  · have := h3 hc
    rw [if_neg hc]
    constructor
    · intro hz
      right
      omega
    · intro hz
      rcases hz with hz | hz
      · exact absurd hz hc
      · omega

lemma decLeft_run (input : List Nat) :
    ∀ st, (∀ x ∈ input, x ≠ 0 ∧ x ≤ 255) → decInv st →
      decLeft (cobs_decoder_run st input).2 = completeRemaining (decLeft st) input := by
  induction input with
  | nil => intro st _ _; simp [cobs_decoder_run, completeRemaining]
  | cons b rest ih =>
    intro st hin hinv
    have hb0 : b ≠ 0 := (hin b (by simp)).1
    have hb255 : b ≤ 255 := (hin b (by simp)).2
    have hinv' := decoder_step_inv st b hinv hb255
    rw [decoder_run_cons]
    rw [ih _ (fun x hx => hin x (by simp [hx])) hinv']
    by_cases hk : decLeft st = 0
    · have hcond := (decLeft_zero_iff st hinv).mp hk
      have hstep : (cobs_decoder_step st b).2 = ⟨b, []⟩ := by
        simp [cobs_decoder_step, hb0, hcond]
      rw [hstep, hk]
      have : decLeft ⟨b, []⟩ = b - 1 := by
        simp [decLeft, hb0]
      rw [this]
      rfl
    · have hcond : ¬ (st.code = 0 ∨ st.buf.length + 1 = st.code) := by
        intro hc
        exact hk ((decLeft_zero_iff st hinv).mpr hc)
      have hstep : (cobs_decoder_step st b).2 = ⟨st.code, st.buf ++ [b]⟩ := by
        simp [cobs_decoder_step, hb0, hcond]
      rw [hstep]
      obtain ⟨k, hkk⟩ : ∃ k, decLeft st = k + 1 := by
        cases hdl : decLeft st with
        | zero => exact absurd hdl hk
        | succ k => exact ⟨k, rfl⟩
      have hc0 : st.code ≠ 0 := by
        intro hc
        apply hk
        simp [decLeft, hc]
      have h3 := hinv.2.2 hc0
      have hstep2 : decLeft ⟨st.code, st.buf ++ [b]⟩ = k := by
        simp only [decLeft, List.length_append, List.length_singleton]
        rw [if_neg hc0]
        simp only [decLeft] at hkk
        rw [if_neg hc0] at hkk
        omega
      rw [hstep2, hkk]
      rfl

lemma cr_consume (d : List Nat) :
    ∀ rest, completeRemaining d.length (d ++ rest) = completeRemaining 0 rest := by
  induction d with
  | nil => intro rest; simp
  | cons x d ih =>
    intro rest
    simp only [List.length_cons, List.cons_append, completeRemaining]
    exact ih rest

lemma cr_short : ∀ (input : List Nat) (k : Nat), input.length < k →
    completeRemaining k input = k - input.length := by
  intro input
  induction input with
  | nil => intro k h; simp [completeRemaining]
  | cons b rest ih =>
    intro k h
    simp only [List.length_cons] at h
    obtain ⟨k', rfl⟩ : ∃ k', k = k' + 1 := by
      cases k with
      | zero => omega
      | succ k' => exact ⟨k', rfl⟩
    simp only [completeRemaining]
    rw [ih k' (by omega)]
    simp only [List.length_cons]
    omega

lemma cr_drop : ∀ (k : Nat) (input : List Nat), k ≤ input.length →
    completeRemaining k input = completeRemaining 0 (input.drop k) := by
  intro k
  induction k with
  | zero => intro input _; simp
  | succ k ih =>
    intro input h
    cases input with
    | nil => simp at h
    | cons b rest =>
      simp only [completeRemaining, List.drop_succ_cons]
      exact ih rest (by simp at h; omega)

lemma blocks_cr (input : List Nat) (h : Blocks input) :
    completeRemaining 0 input = 0 := by
  induction h with
  | nil => rfl
  | cons c d rest hc hc255 hlen hb ih =>
    simp only [completeRemaining]
    rw [← hlen, cr_consume]
    exact ih

lemma cr_blocks : ∀ (n : Nat) (input : List Nat), input.length ≤ n →
    (∀ x ∈ input, x ≠ 0 ∧ x ≤ 255) → completeRemaining 0 input = 0 → Blocks input := by
  intro n
  induction n with
  | zero =>
    intro input hlen _ _
    cases input with
    | nil => exact Blocks.nil
    | cons b rest => simp at hlen
  | succ n ih =>
    intro input hlen hbytes hcr
    cases input with
    | nil => exact Blocks.nil
    | cons c rest =>
      have hc := hbytes c (by simp)
      simp only [completeRemaining] at hcr
      have hrest_len : c - 1 ≤ rest.length := by
        by_contra hlt
        push_neg at hlt
        have := cr_short rest (c - 1) hlt
        omega
      rw [cr_drop (c - 1) rest hrest_len] at hcr
      have hb2 : Blocks (rest.drop (c - 1)) := by
        refine ih _ ?_ ?_ hcr
        · simp only [List.length_drop]
          simp only [List.length_cons] at hlen
          omega
        · intro x hx
          exact hbytes x (by simp [List.drop_subset _ rest hx])
      have hmain : Blocks (c :: (rest.take (c - 1) ++ rest.drop (c - 1))) := by
        refine Blocks.cons c _ _ hc.1 hc.2 ?_ hb2
        simp only [List.length_take]
        omega
      simpa [List.take_append_drop] using hmain

end Cobs

namespace Cobs

lemma encBufGo_length (input : List Nat) :
    ∀ lenPos datPos code (buffer : List Nat),
      (encBufGo lenPos datPos code input buffer).2.length = buffer.length := by
  induction input with
  | nil =>
    intro lenPos datPos code buffer
    simp only [encBufGo]
    split_ifs <;> simp [List.length_set]
  | cons b rest ih =>
    intro lenPos datPos code buffer
    simp only [encBufGo]
    split_ifs <;> simp [ih, List.length_set]

lemma encBufGo_high (input : List Nat) :
    ∀ lenPos datPos code (buffer : List Nat) (m : Nat),
      lenPos ≤ datPos →
      datPos + encRequired code input + 1 ≤ m →
      (encBufGo lenPos datPos code input buffer).2.drop m = buffer.drop m := by
  induction input with
  | nil =>
    intro lenPos datPos code buffer m hld hm
    simp only [encRequired] at hm
    simp only [encBufGo]
    split_ifs
    · exact List.drop_set_of_lt _ _ (by omega)
    · rfl
  | cons b rest ih =>
    intro lenPos datPos code buffer m hld hm
    by_cases hb : b = 0
    · have hreq : encRequired code (b :: rest) = 1 + encRequired 1 rest := by
        simp [encRequired, hb]
      rw [hreq] at hm
      subst hb
      simp only [encBufGo, if_pos rfl, ite_true]
      split_ifs <;>
        (refine Eq.trans (ih _ _ _ _ _ (by omega) (by omega)) ?_ ;
         repeat rw [List.drop_set_of_lt _ _ (by omega)]) <;>
        try rfl
    · by_cases hc : code + 1 = 255
      · by_cases hr : rest.isEmpty
        · have hreq : encRequired code (b :: rest) = 1 + encRequired 1 rest := by
            simp [encRequired, hb, hc, hr]
          rw [hreq] at hm
          simp only [encBufGo, if_neg hb, hc, if_pos rfl, hr, ite_true, ite_false]
          split_ifs <;>
            (refine Eq.trans (ih _ _ _ _ _ (by omega) (by omega)) ?_ ;
             repeat rw [List.drop_set_of_lt _ _ (by omega)]) <;>
            try rfl
        · have hreq : encRequired code (b :: rest) = 2 + encRequired 1 rest := by
            simp [encRequired, hb, hc, hr]
          rw [hreq] at hm
          simp only [encBufGo, if_neg hb, hc, if_pos rfl, hr, ite_true, ite_false]
          split_ifs <;>
            (refine Eq.trans (ih _ _ _ _ _ (by omega) (by omega)) ?_ ;
             repeat rw [List.drop_set_of_lt _ _ (by omega)]) <;>
            try rfl
      · have hreq : encRequired code (b :: rest) = 1 + encRequired (code + 1) rest := by
          simp [encRequired, hb, hc]
        rw [hreq] at hm
        simp only [encBufGo, if_neg hb, if_neg hc]
        split_ifs <;>
          (refine Eq.trans (ih _ _ _ _ _ (by omega) (by omega)) ?_ ;
           repeat rw [List.drop_set_of_lt _ _ (by omega)]) <;>
          try rfl

end Cobs

namespace Cobs

lemma getOr_set (L : List Nat) (n v i : Nat) (hv : 1 ≤ v) :
    (L.set n v)[i]? = L[i]? ∨ ∃ w : Nat, (L.set n v)[i]? = some w ∧ 1 ≤ w := by
  by_cases hn : n = i
  · subst hn
    by_cases hl : n < L.length
    · right
      exact ⟨v, List.getElem?_set_self hl, hv⟩
    · left
      rw [List.set_eq_of_length_le (by omega)]
  · left
    exact List.getElem?_set_ne hn

lemma nonzero_trans {final buffer1 buffer : List Nat} (i : Nat)
    (h1 : final[i]? = buffer1[i]? ∨ ∃ v : Nat, final[i]? = some v ∧ 1 ≤ v)
    (h2 : buffer1[i]? = buffer[i]? ∨ ∃ v : Nat, buffer1[i]? = some v ∧ 1 ≤ v) :
    final[i]? = buffer[i]? ∨ ∃ v : Nat, final[i]? = some v ∧ 1 ≤ v := by
  rcases h1 with h1 | h1
  · rcases h2 with h2 | h2
    · left
      rw [h1, h2]
    · right
      rw [h1]
      exact h2
  · right
    exact h1

lemma encBufGo_writes (input : List Nat) :
    ∀ lenPos datPos code (buffer : List Nat), 1 ≤ code → ∀ i : Nat,
      ((encBufGo lenPos datPos code input buffer).2)[i]? = buffer[i]? ∨
        ∃ v : Nat, ((encBufGo lenPos datPos code input buffer).2)[i]? = some v ∧ 1 ≤ v := by
  induction input with
  | nil =>
    intro lenPos datPos code buffer hcode i
    simp only [encBufGo]
    split_ifs
    · exact getOr_set buffer lenPos code i hcode
    · left
      rfl
  | cons b rest ih =>
    intro lenPos datPos code buffer hcode i
    have hb1 : b = 0 ∨ 1 ≤ b := by omega
    simp only [encBufGo]
    split_ifs <;>
      refine nonzero_trans i (ih _ _ _ _ (by omega) i) ?_ <;>
      first
      | (left ; rfl)
      | exact getOr_set _ _ _ _ (by omega)
      | exact nonzero_trans i (getOr_set _ _ _ _ (by omega)) (getOr_set _ _ _ _ (by omega))

end Cobs

namespace Cobs

lemma decJoin_encode (P : List Nat) : decJoin 255 (encBlocks [] P) = P := by
  have h := decJoin_encBlocks [] P 255
  simpa using h

lemma round_trip_cb (P tail : List Nat) (htail : ∀ c, decGo c 0 tail = ([], 0)) :
    decGo 255 0 (cobs_encode P ++ tail) = (P, 0) := by
  rw [cobs_encode, encGo_eq_serialize, decGo_serialize _ _ htail 255, decJoin_encode]

lemma round_trip_buf_out (P tail : List Nat) (htail : ∀ c, decBufOut c 0 tail = ([], 0)) :
    decBufOut 255 0 (cobs_encode P ++ tail) = (P, 0) := by
  rw [cobs_encode, encGo_eq_serialize, decBufOut_serialize _ _ htail 255, decJoin_encode]

lemma round_trip_buf (P tail dbuf : List Nat) (htail : ∀ c, decBufOut c 0 tail = ([], 0))
    (hd : P.length ≤ dbuf.length) :
    cobs_decode_buf (cobs_encode P ++ tail) dbuf =
      (P.length, P ++ dbuf.drop P.length) := by
  have hout := round_trip_buf_out P tail htail
  have hcap : 0 + (decBufOut 255 0 (cobs_encode P ++ tail)).1.length ≤ dbuf.length := by
    rw [hout]
    simpa using hd
  rw [cobs_decode_buf, decBufGo_out _ _ _ _ _ hcap, hout]
  simp only [ite_true, if_pos rfl]
  rw [overwrite_spec _ _ _ (by simpa using hd)]
  simp

end Cobs

namespace Cobs

lemma encode_buf_front (P ebuf : List Nat) (he : 2 * P.length + 2 ≤ ebuf.length) :
    (cobs_encode_buf P ebuf).2.take (cobs_encode P).length = cobs_encode P := by
  obtain ⟨e0, erest, rfl⟩ : ∃ e0 erest, ebuf = e0 :: erest := by
    cases ebuf with
    | nil =>
      simp only [List.length_nil] at he
      omega
    | cons e0 erest => exact ⟨e0, erest, rfl⟩
  obtain ⟨tail, htail⟩ := encBufGo_layout P [] [] erest e0 0 1 1 rfl (by simp) (by simp)
    (by simp) (by simp only [List.length_cons] at he ⊢; omega)
  simp only [List.nil_append] at htail
  rw [cobs_encode_buf]
  simp only
  rw [htail]
  simp only
  rw [cobs_encode, encGo_eq_serialize]
  exact List.take_left _ _

end Cobs

namespace Cobs

/-- Claim C1: round-trip — bulk-decoding the bulk-encoded output of any
payload, with or without the trailing `0x00` delimiter, restores the
payload exactly, for the callback and bounded-buffer variants of both
`cobs_encode` and `cobs_decode` (buffers being large enough). -/
theorem spec_C1_round_trip (P ebuf dbuf : List Nat)
    (hbytes : ∀ b ∈ P, b < 256)
    (he : 2 * P.length + 2 ≤ ebuf.length)
    (hd : P.length ≤ dbuf.length) :
    cobs_decode (cobs_encode P ++ [0]) = (P, 0) ∧
    cobs_decode (cobs_encode P) = (P, 0) ∧
    cobs_decode_total (cobs_encode P ++ [0]) = P.length ∧
    cobs_decode_total (cobs_encode P) = P.length ∧
    (cobs_encode_buf P ebuf).1 = (cobs_encode P).length ∧
    (cobs_encode_buf P ebuf).2.take (cobs_encode P).length = cobs_encode P ∧
    (cobs_decode_buf (cobs_encode P ++ [0]) dbuf).1 = P.length ∧
    (cobs_decode_buf (cobs_encode P ++ [0]) dbuf).2.take P.length = P ∧
    (cobs_decode_buf (cobs_encode P) dbuf).1 = P.length ∧
    (cobs_decode_buf (cobs_encode P) dbuf).2.take P.length = P := by
  have h1 : cobs_decode (cobs_encode P ++ [0]) = (P, 0) :=
    round_trip_cb P [0] decGo_delim
  have h2 : cobs_decode (cobs_encode P) = (P, 0) := by
    have := round_trip_cb P [] decGo_nil
    simpa [cobs_decode] using this
  have h7 := round_trip_buf P [0] dbuf decBufOut_delim hd
  have h9 : cobs_decode_buf (cobs_encode P) dbuf = (P.length, P ++ dbuf.drop P.length) := by
    have := round_trip_buf P [] dbuf decBufOut_nil hd
    simpa using this
  refine ⟨h1, h2, ?_, ?_, cobs_encode_buf_required P ebuf, encode_buf_front P ebuf he,
    ?_, ?_, ?_, ?_⟩
  · simp [cobs_decode_total, h1]
  · simp [cobs_decode_total, h2]
  · rw [h7]
  · rw [h7]
    simp [List.take_left]
  · rw [h9]
  · rw [h9]
    simp [List.take_left]

/-- Witness for C1 at a concrete payload and concrete buffers. -/
theorem spec_C1_round_trip_witness :
    (∀ b ∈ [1, 0, 2], b < 256) ∧
    2 * ([1, 0, 2] : List Nat).length + 2 ≤ (List.replicate 8 0).length ∧
    ([1, 0, 2] : List Nat).length ≤ ([0, 0, 0] : List Nat).length ∧
    (cobs_decode (cobs_encode [1, 0, 2] ++ [0]) = ([1, 0, 2], 0) ∧
     cobs_decode (cobs_encode [1, 0, 2]) = ([1, 0, 2], 0) ∧
     cobs_decode_total (cobs_encode [1, 0, 2] ++ [0]) = ([1, 0, 2] : List Nat).length ∧
     cobs_decode_total (cobs_encode [1, 0, 2]) = ([1, 0, 2] : List Nat).length ∧
     (cobs_encode_buf [1, 0, 2] (List.replicate 8 0)).1 = (cobs_encode [1, 0, 2]).length ∧
     (cobs_encode_buf [1, 0, 2] (List.replicate 8 0)).2.take (cobs_encode [1, 0, 2]).length =
       cobs_encode [1, 0, 2] ∧
     (cobs_decode_buf (cobs_encode [1, 0, 2] ++ [0]) [0, 0, 0]).1 = ([1, 0, 2] : List Nat).length ∧
     (cobs_decode_buf (cobs_encode [1, 0, 2] ++ [0]) [0, 0, 0]).2.take
       ([1, 0, 2] : List Nat).length = [1, 0, 2] ∧
     (cobs_decode_buf (cobs_encode [1, 0, 2]) [0, 0, 0]).1 = ([1, 0, 2] : List Nat).length ∧
     (cobs_decode_buf (cobs_encode [1, 0, 2]) [0, 0, 0]).2.take
       ([1, 0, 2] : List Nat).length = [1, 0, 2]) :=
  ⟨by decide, by decide, by decide,
   spec_C1_round_trip [1, 0, 2] (List.replicate 8 0) [0, 0, 0]
     (by decide) (by decide) (by decide)⟩

/-- Claim C2: streaming equivalence — feeding a payload byte by byte to
`cobs_encoder_t` and concatenating every chunk handed to the sink
callback, followed by the chunk emitted by `stop()`, equals the bulk
callback-variant `cobs_encode` output with one `0x00` appended. -/
theorem spec_C2_streaming_equivalence (P : List Nat) :
    (cobs_encoder_run [] P).1.flatten ++ cobs_encoder_stop (cobs_encoder_run [] P).2 =
      cobs_encode P ++ [0] := by
  simpa [cobs_encode] using encoder_run_eq [] P

/-- Claim C3 (code bug): on the truncated input `[0x03, 0x41]` the
callback-variant bulk `cobs_decode` returns 1 and reports no missing
bytes, treating the frame as valid, while the bounded-buffer variant
returns 0 for the same input; `completeRemaining` certifies that one
declared data byte is absent. -/
theorem spec_C3_malformed_divergence :
    cobs_decode_total [3, 65] = 1 ∧
    (cobs_decode [3, 65]).2 = 0 ∧
    (cobs_decode_buf [3, 65] [0, 0, 0]).1 = 0 ∧
    completeRemaining 0 [3, 65] = 1 := by
  refine ⟨?_, ?_, by decide, by decide⟩ <;>
    simp [cobs_decode_total, cobs_decode, decGo.eq_def]

/-- Claim C4 (code bug): on the truncated input `[0x04, 0x41]` the
callback-variant bulk `cobs_decode` ends with `block = 1`, so its final
callback reports 1 missing byte, while the streaming decoder fed the
same bytes reports `left = 2` from `stop()`; on `[0x03, 0x41]` the bulk
variant ends with `block = 0` and emits no error report at all. -/
theorem spec_C4_missing_count_divergence :
    (cobs_decode [4, 65]).2 = 1 ∧
    cobs_decode_total [4, 65] = 0 ∧
    (cobs_decoder_stop (cobs_decoder_run ⟨0, []⟩ [4, 65]).2).1.2 = 2 ∧
    (cobs_decode [3, 65]).2 = 0 ∧
    cobs_decode_total [3, 65] = 1 := by
  refine ⟨?_, ?_, by decide, ?_, ?_⟩ <;>
    simp [cobs_decode_total, cobs_decode, decGo.eq_def]

/-- Claim C5: after feeding any sequence of nonzero bytes from the reset
state, `cobs_decoder_t::stop` emits the buffered bytes once with
`left = code ? code - size - 1 : 0` and resets; that `left` is zero
exactly when the bytes form a complete delimiterless block sequence,
and positive exactly when the frame is truncated. -/
theorem spec_C5_stop_left (input : List Nat)
    (h : ∀ b ∈ input, b ≠ 0 ∧ b ≤ 255) :
    cobs_decoder_stop (cobs_decoder_run ⟨0, []⟩ input).2 =
      (((cobs_decoder_run ⟨0, []⟩ input).2.buf,
        decLeft (cobs_decoder_run ⟨0, []⟩ input).2), ⟨0, []⟩) ∧
    (decLeft (cobs_decoder_run ⟨0, []⟩ input).2 = 0 ↔ Blocks input) ∧
    (0 < decLeft (cobs_decoder_run ⟨0, []⟩ input).2 ↔ ¬ Blocks input) := by
  have hinv0 : decInv (⟨0, []⟩ : cobs_decoder_t) :=
    ⟨by decide, fun _ => rfl, fun hc => absurd rfl hc⟩
  have hrun := decLeft_run input ⟨0, []⟩ h hinv0
  have h0 : decLeft (⟨0, []⟩ : cobs_decoder_t) = 0 := by simp [decLeft]
  rw [h0] at hrun
  have hiff : decLeft (cobs_decoder_run ⟨0, []⟩ input).2 = 0 ↔ Blocks input := by
    rw [hrun]
    exact ⟨cr_blocks input.length input le_rfl h, blocks_cr input⟩
  refine ⟨rfl, hiff, ?_⟩
  rw [Nat.pos_iff_ne_zero]
  exact not_congr hiff

/-- Witness for C5 at the complete one-block frame `[0x02, 0x07]`. -/
theorem spec_C5_stop_left_witness :
    (∀ b ∈ [2, 7], b ≠ 0 ∧ b ≤ 255) ∧
    (cobs_decoder_stop (cobs_decoder_run ⟨0, []⟩ [2, 7]).2 =
      (((cobs_decoder_run ⟨0, []⟩ [2, 7]).2.buf,
        decLeft (cobs_decoder_run ⟨0, []⟩ [2, 7]).2), ⟨0, []⟩) ∧
    (decLeft (cobs_decoder_run ⟨0, []⟩ [2, 7]).2 = 0 ↔ Blocks [2, 7]) ∧
    (0 < decLeft (cobs_decoder_run ⟨0, []⟩ [2, 7]).2 ↔ ¬ Blocks [2, 7])) :=
  ⟨by decide, spec_C5_stop_left [2, 7] (by decide)⟩

/-- Claim C6: the bounded-buffer `cobs_encode` returns the same required
size for every output buffer (capacity 0 included), and that size
equals the byte count produced by the callback-variant `cobs_encode`. -/
theorem spec_C6_measurement_consistency (P buf1 buf2 : List Nat) :
    (cobs_encode_buf P buf1).1 = (cobs_encode_buf P buf2).1 ∧
    (cobs_encode_buf P buf1).1 = (cobs_encode P).length := by
  have ha := cobs_encode_buf_required P buf1
  have hb := cobs_encode_buf_required P buf2
  exact ⟨by rw [ha, hb], ha⟩

/-- Claim C7: every byte produced by the callback-variant `cobs_encode`,
by every flush of the streaming `cobs_encoder_t` and by every store of
the bounded-buffer `cobs_encode` lies in `[1, 255]`; the only zero byte
ever produced is the final delimiter of `cobs_encoder_t::stop`. -/
theorem spec_C7_zero_free (P buffer : List Nat) (hbytes : ∀ b ∈ P, b ≤ 255) :
    (∀ x ∈ cobs_encode P, 1 ≤ x ∧ x ≤ 255) ∧
    (∀ ch ∈ (cobs_encoder_run [] P).1, ∀ x ∈ ch, 1 ≤ x ∧ x ≤ 255) ∧
    (∀ x ∈ (cobs_encoder_stop (cobs_encoder_run [] P).2).dropLast, 1 ≤ x ∧ x ≤ 255) ∧
    (cobs_encoder_stop (cobs_encoder_run [] P).2).getLast? = some 0 ∧
    (∀ i : Nat, ((cobs_encode_buf P buffer).2)[i]? = buffer[i]? ∨
      ∃ v : Nat, ((cobs_encode_buf P buffer).2)[i]? = some v ∧ 1 ≤ v) := by
  have hrun := encoder_run_chunks P [] (by simp) (by simp) hbytes
  refine ⟨?_, hrun.1, ?_, ?_, ?_⟩
  · rw [cobs_encode, encGo_eq_serialize]
    exact serializeBlocks_bytes _ (encBlocks_bytes [] P (by simp) (by simp) hbytes)
  · have hstop : cobs_encoder_stop (cobs_encoder_run [] P).2 =
        (((cobs_encoder_run [] P).2.length + 1) :: (cobs_encoder_run [] P).2) ++ [0] := rfl
    rw [hstop, List.dropLast_append_of_ne_nil _ (by simp)]
    simp only [List.dropLast_single, List.append_nil]
    exact encoder_flush_bytes hrun.2.1 hrun.2.2
  · have hstop : cobs_encoder_stop (cobs_encoder_run [] P).2 =
        (((cobs_encoder_run [] P).2.length + 1) :: (cobs_encoder_run [] P).2) ++ [0] := rfl
    rw [hstop, List.getLast?_append_of_ne_nil _ (by simp)]
    rfl
  · intro i
    exact encBufGo_writes P 0 1 1 buffer (by omega) i

/-- Witness for C7 at a concrete payload and buffer. -/
theorem spec_C7_zero_free_witness :
    (∀ b ∈ [1, 0, 2], b ≤ 255) ∧
    ((∀ x ∈ cobs_encode [1, 0, 2], 1 ≤ x ∧ x ≤ 255) ∧
    (∀ ch ∈ (cobs_encoder_run [] [1, 0, 2]).1, ∀ x ∈ ch, 1 ≤ x ∧ x ≤ 255) ∧
    (∀ x ∈ (cobs_encoder_stop (cobs_encoder_run [] [1, 0, 2]).2).dropLast, 1 ≤ x ∧ x ≤ 255) ∧
    (cobs_encoder_stop (cobs_encoder_run [] [1, 0, 2]).2).getLast? = some 0 ∧
    (∀ i : Nat, ((cobs_encode_buf [1, 0, 2] [0, 0, 0]).2)[i]? = ([0, 0, 0] : List Nat)[i]? ∨
      ∃ v : Nat, ((cobs_encode_buf [1, 0, 2] [0, 0, 0]).2)[i]? = some v ∧ 1 ≤ v)) :=
  ⟨by decide, spec_C7_zero_free [1, 0, 2] [0, 0, 0] (by decide)⟩

set_option maxRecDepth 40000 in
/-- Counterexample to claim C8 as stated: encoding 254 nonzero bytes
into a 256-byte buffer returns required size 255 yet overwrites the
byte at offset 255 (with the code byte 1 of a block that was never
counted), so a byte at an offset equal to the returned size is
modified. -/
theorem spec_C8_write_frame_counterexample :
    (cobs_encode_buf (List.replicate 254 1) (List.replicate 256 0)).1 = 255 ∧
    ((cobs_encode_buf (List.replicate 254 1) (List.replicate 256 0)).2)[255]? = some 1 ∧
    ((cobs_encode_buf (List.replicate 254 1) (List.replicate 256 0)).2)[255]? ≠
      (List.replicate 256 0)[255]? := by
  refine ⟨by decide, by decide, by decide⟩

/-- Claim C8 (amended): the bounded-buffer `cobs_encode` never changes
the buffer length and modifies no byte at an offset strictly greater
than the returned required size; the byte at offset exactly `required`
may additionally be overwritten with a code byte when the payload ends
a block exactly at the end of input. -/
theorem spec_C8_write_frame_amended (P buffer : List Nat) :
    (cobs_encode_buf P buffer).2.length = buffer.length ∧
    (cobs_encode_buf P buffer).2.drop ((cobs_encode_buf P buffer).1 + 1) =
      buffer.drop ((cobs_encode_buf P buffer).1 + 1) := by
  constructor
  · exact encBufGo_length P 0 1 1 buffer
  · have hreq := encBufGo_required P 0 1 1 buffer
    rw [cobs_encode_buf]
    simp only
    rw [hreq]
    exact encBufGo_high P 0 1 1 buffer (1 + encRequired 1 P + 1) (by omega) (by omega)

set_option maxRecDepth 40000 in
/-- Claim C9: concrete wire vectors — the empty payload encodes to the
single block `[0x01]`; `[0x00]` encodes to `[0x01, 0x01]`, whose frame
`[0x01, 0x01, 0x00]` decodes back to `[0x00]`; 255 bytes of `0x01`
encode to a `0xFF` block of 254 data bytes followed by a `0x02` block
with the remaining byte, and the frame with delimiter decodes to all
255 bytes with no zero inserted between the blocks. -/
theorem spec_C9_wire_vectors :
    cobs_encode [] = [1] ∧
    cobs_encode [0] = [1, 1] ∧
    cobs_decode [1, 1, 0] = ([0], 0) ∧
    cobs_encode (List.replicate 255 1) = 255 :: (List.replicate 254 1 ++ [2, 1]) ∧
    cobs_decode (cobs_encode (List.replicate 255 1) ++ [0]) = (List.replicate 255 1, 0) ∧
    cobs_decode_total (cobs_encode (List.replicate 255 1) ++ [0]) = 255 := by
  have h5 : cobs_decode (cobs_encode (List.replicate 255 1) ++ [0]) =
      (List.replicate 255 1, 0) := round_trip_cb (List.replicate 255 1) [0] decGo_delim
  refine ⟨by decide, by decide, ?_, by decide, h5, ?_⟩
  · simp [cobs_decode, decGo.eq_def]
  · unfold cobs_decode_total
    rw [h5]
    simp

/-- Claim C10: from the reset state, after any input byte sequence the
streaming decoder state satisfies `code = 0 → size = 0` and
`code ≠ 0 → size ≤ code - 1`, so `size` never exceeds 254 (every store
into the 255-byte buffer is in bounds) and every chunk handed to the
callback has length at most 254. -/
theorem spec_C10_decoder_invariant (input : List Nat) (h : ∀ b ∈ input, b ≤ 255) :
    ((cobs_decoder_run ⟨0, []⟩ input).2.code = 0 →
      (cobs_decoder_run ⟨0, []⟩ input).2.buf.length = 0) ∧
    ((cobs_decoder_run ⟨0, []⟩ input).2.code ≠ 0 →
      (cobs_decoder_run ⟨0, []⟩ input).2.buf.length ≤
        (cobs_decoder_run ⟨0, []⟩ input).2.code - 1) ∧
    (cobs_decoder_run ⟨0, []⟩ input).2.buf.length ≤ 254 ∧
    (∀ e ∈ (cobs_decoder_run ⟨0, []⟩ input).1, e.1.length ≤ 254) := by
  have hinv0 : decInv (⟨0, []⟩ : cobs_decoder_t) :=
    ⟨by decide, fun _ => rfl, fun hc => absurd rfl hc⟩
  have hinv := decoder_run_inv input ⟨0, []⟩ h hinv0
  obtain ⟨h1, h2, h3⟩ := hinv
  refine ⟨fun hc => by rw [h2 hc]; rfl, fun hc => by have := h3 hc; omega, ?_,
    decoder_run_chunks input ⟨0, []⟩ h hinv0⟩
  by_cases hc : (cobs_decoder_run ⟨0, []⟩ input).2.code = 0
  · rw [h2 hc]
    simp
  · have := h3 hc
    omega

/-- Witness for C10 at a concrete byte sequence containing a delimiter
and a full-block code byte. -/
theorem spec_C10_decoder_invariant_witness :
    (∀ b ∈ [2, 7, 0, 255, 9], b ≤ 255) ∧
    (((cobs_decoder_run ⟨0, []⟩ [2, 7, 0, 255, 9]).2.code = 0 →
      (cobs_decoder_run ⟨0, []⟩ [2, 7, 0, 255, 9]).2.buf.length = 0) ∧
    ((cobs_decoder_run ⟨0, []⟩ [2, 7, 0, 255, 9]).2.code ≠ 0 →
      (cobs_decoder_run ⟨0, []⟩ [2, 7, 0, 255, 9]).2.buf.length ≤
        (cobs_decoder_run ⟨0, []⟩ [2, 7, 0, 255, 9]).2.code - 1) ∧
    (cobs_decoder_run ⟨0, []⟩ [2, 7, 0, 255, 9]).2.buf.length ≤ 254 ∧
    (∀ e ∈ (cobs_decoder_run ⟨0, []⟩ [2, 7, 0, 255, 9]).1, e.1.length ≤ 254)) :=
  ⟨by decide, spec_C10_decoder_invariant [2, 7, 0, 255, 9] (by decide)⟩

end Cobs

